import Mathlib

/-!
Shallow embedding of `examples/grep-server/generate-script.py`.

The script draws random values through `random.choice` and `random.randint`
and writes CSV rows through `csv.writer` (default dialect: delimiter `,`,
quote char `"`, QUOTE_MINIMAL, line terminator `"\r\n"`).  Randomness is
embedded as an oracle supplying one raw natural number per primitive call;
`random.choice lst` returns `lst[r mod len lst]` and `random.randint a b`
returns a value of `[a, b]`, here `a + r mod (b - a + 1)`.
-/

namespace GenScript

/-- `depts` list from the script. -/
def depts : List String :=
  ["Engineering", "Sales", "Marketing", "HR", "Product", "Legal", "Support"]

/-- `first_names` list from the script. -/
def first_names : List String :=
  ["James", "Mary", "Robert", "Patricia", "John", "Jennifer", "Michael", "Linda"]

/-- `last_names` list from the script. -/
def last_names : List String :=
  ["Smith", "Johnson", "Williams", "Brown", "Jones", "Garcia", "Miller", "Davis"]

/-- Embedding of `random.choice`: the oracle supplies a raw natural `r` and
the primitive returns the element at index `r mod length`. -/
def rchoice (l : List String) (r : Nat) : String :=
  l.getD (r % l.length) ""

/-- Embedding of `random.randint a b` (both endpoints inclusive): the oracle
supplies a raw natural `r`, reduced into the closed interval `[a, b]`. -/
def randint (a b r : Nat) : Nat :=
  a + r % (b - a + 1)

/-- The raw oracle values consumed by one loop iteration, in the order the
script draws them: first name, last name, age, salary, department. -/
structure Draws where
  rFname : Nat
  rLname : Nat
  rAge : Nat
  rSalary : Nat
  rDept : Nat
deriving DecidableEq, Repr

/-- One decimal digit as a character (argument taken mod-10 by callers). -/
def digitChar : Nat → Char
  | 0 => '0' | 1 => '1' | 2 => '2' | 3 => '3' | 4 => '4'
  | 5 => '5' | 6 => '6' | 7 => '7' | 8 => '8' | _ => '9'

/-- Decimal digit list of a natural number, most significant first:
embedding of Python's `str` on a nonnegative `int` (as applied by
`csv.writer` to the `age` and `salary` fields and by the f-string to `i`). -/
def natDigits (n : Nat) : List Char :=
  if _h : n < 10 then [digitChar n]
  else natDigits (n / 10) ++ [digitChar (n % 10)]
decreasing_by exact Nat.div_lt_self (by omega) (by omega)

/-- Decimal string of a natural number. -/
def natToString (n : Nat) : String :=
  ⟨natDigits n⟩

/-- Embedding of Python `str.lower` on ASCII strings. -/
def strLower (s : String) : String :=
  ⟨s.data.map Char.toLower⟩

/-- `fname = random.choice(first_names)`. -/
def fnameOf (d : Draws) : String := rchoice first_names d.rFname

/-- `lname = random.choice(last_names)`. -/
def lnameOf (d : Draws) : String := rchoice last_names d.rLname

/-- `name = f"{fname} {lname}"`. -/
def nameOf (d : Draws) : String := fnameOf d ++ " " ++ lnameOf d

/-- `email = f"{fname.lower()}.{lname.lower()}{i}@company.com"`. -/
def emailOf (i : Nat) (d : Draws) : String :=
  strLower (fnameOf d) ++ "." ++ strLower (lnameOf d) ++ natToString i ++ "@company.com"

/-- `age = random.randint(22, 65)`. -/
def ageOf (d : Draws) : Nat := randint 22 65 d.rAge

/-- `salary = random.randint(40000, 160000)`. -/
def salaryOf (d : Draws) : Nat := randint 40000 160000 d.rSalary

/-- `dept = random.choice(depts)`. -/
def deptOf (d : Draws) : String := rchoice depts d.rDept

/-- The header row `["name", "email", "age", "salary", "department"]`. -/
def headerRow : List String :=
  ["name", "email", "age", "salary", "department"]

/-- The field list passed to `w.writerow` for loop index `i`:
`[name, email, age, salary, dept]`, integers rendered in decimal. -/
def makeRecord (i : Nat) (d : Draws) : List String :=
  [nameOf d, emailOf i d, natToString (ageOf d), natToString (salaryOf d), deptOf d]

/-- `csv.writer` QUOTE_MINIMAL trigger: a field is quoted iff it contains
the delimiter, the quote char, or a character of the line terminator. -/
def needsQuote (s : String) : Bool :=
  s.data.any (fun c => c == ',' || c == '"' || c == '\r' || c == '\n')

/-- Double every quote char, as `csv.writer` escapes inside a quoted field. -/
def escapeQuotes (s : String) : String :=
  ⟨s.data.foldr (fun c acc => if c = '"' then '"' :: '"' :: acc else c :: acc) []⟩

/-- Serialize one field under the default csv dialect. -/
def quoteField (s : String) : String :=
  if needsQuote s then "\"" ++ escapeQuotes s ++ "\"" else s

/-- Comma-join of already-serialized fields. -/
def joinComma : List String → String
  | [] => ""
  | [s] => s
  | s :: rest => s ++ "," ++ joinComma rest

/-- `w.writerow(row)`: serialized fields joined by the delimiter, followed by
the default line terminator `"\r\n"`. -/
def writerow (row : List String) : String :=
  joinComma (row.map quoteField) ++ "\r\n"

/-- The rows passed to `w.writerow`, in program order: the header, then one
record per loop index `i` of `range n` (`n = 100000` in the script). -/
def csvRows (n : Nat) (o : Nat → Draws) : List (List String) :=
  headerRow :: (List.range n).map (fun i => makeRecord i (o i))

/-- Sequential concatenation of the written lines. -/
def strJoin : List String → String
  | [] => ""
  | s :: rest => s ++ strJoin rest

/-- The full byte content written to the sink for count `n` and oracle `o`. -/
def output (n : Nat) (o : Nat → Draws) : String :=
  strJoin ((csvRows n o).map writerow)

/-! ### Character predicates -/

/-- Decimal digit character (`'0'`–`'9'`). -/
def isDigitC (c : Char) : Bool := 48 ≤ c.toNat && c.toNat ≤ 57

/-- Lowercase ASCII letter. -/
def lowerAlpha (c : Char) : Bool := 97 ≤ c.toNat && c.toNat ≤ 122

/-- A character that never triggers csv quoting: not the delimiter, the quote
char, or part of the line terminator. -/
def cleanChar (c : Char) : Bool := !(c == ',' || c == '"' || c == '\r' || c == '\n')

/-- A string whose serialization never triggers quoting. -/
def cleanStr (s : String) : Bool := s.data.all cleanChar

/-- Value of a digit list, base 10, most significant first. -/
def digitsVal (l : List Char) : Nat :=
  l.foldl (fun a c => a * 10 + (c.toNat - 48)) 0

/-! ### Sink / IO model

The script writes through `with open(...) as f:`.  The `with` statement is
embedded as an event trace: opening may fail (the block is then never
entered); each row write may fail, aborting the remaining writes at once;
and whenever the open succeeded, the handle is closed after the block, on
the success and the error path alike. -/

/-- Observable sink events of one run. -/
inductive Ev where
  | opened : Ev
  | wrote : String → Ev
  | closed : Ev
deriving DecidableEq

/-- Failure injection for the sink: whether the open fails, and whether the
`k`-th write call fails. -/
structure SinkModel where
  openFails : Bool
  writeFails : Nat → Bool

/-- Sequential writes of the given lines starting at call index `k`: stops at
the first failing write, never retrying, and reports success. -/
def writeLoop (fails : Nat → Bool) : List String → Nat → List Ev × Bool
  | [], _ => ([], true)
  | s :: rest, k =>
    if fails k then ([], false)
    else
      let r := writeLoop fails rest (k + 1)
      (Ev.wrote s :: r.1, r.2)

/-- Embedding of the whole `with open(...) as f:` block: on open failure
nothing happens and the error surfaces; otherwise the rows are written in
order until the first failure, and the handle is closed in every case. -/
def runGen (n : Nat) (o : Nat → Draws) (sk : SinkModel) : List Ev × Bool :=
  if sk.openFails then ([], false)
  else
    let r := writeLoop sk.writeFails ((csvRows n o).map writerow) 0
    (Ev.opened :: r.1 ++ [Ev.closed], r.2)

/-! ### Helper lemmas -/

theorem lowerAlpha_facts (c : Char) (h : lowerAlpha c = true) :
    isDigitC c = false ∧ cleanChar c = true ∧ c ≠ '.' ∧ c ≠ '@' := by
  simp only [lowerAlpha, Bool.and_eq_true, decide_eq_true_eq] at h
  obtain ⟨h1, h2⟩ := h
  refine ⟨?_, ?_, ?_, ?_⟩
  · simp only [isDigitC, Bool.and_eq_false_iff, decide_eq_false_iff_not]
    omega
  · simp only [cleanChar, Bool.not_eq_true', Bool.or_eq_false_iff, beq_eq_false_iff_ne, ne_eq]
    refine ⟨⟨⟨?_, ?_⟩, ?_⟩, ?_⟩ <;> (rintro rfl; exact absurd h1 (by decide))
  · rintro rfl; exact absurd h1 (by decide)
  · rintro rfl; exact absurd h1 (by decide)

theorem isDigitC_facts (c : Char) (h : isDigitC c = true) :
    cleanChar c = true ∧ c ≠ '.' ∧ c ≠ '@' := by
  simp only [isDigitC, Bool.and_eq_true, decide_eq_true_eq] at h
  obtain ⟨h1, h2⟩ := h
  refine ⟨?_, ?_, ?_⟩
  · simp only [cleanChar, Bool.not_eq_true', Bool.or_eq_false_iff, beq_eq_false_iff_ne, ne_eq]
    refine ⟨⟨⟨?_, ?_⟩, ?_⟩, ?_⟩ <;> (rintro rfl; revert h1 h2; decide)
  · rintro rfl; revert h1 h2; decide
  · rintro rfl; revert h1 h2; decide

theorem digitChar_digit (d : Nat) : isDigitC (digitChar d) = true := by
  match d with
  | 0 | 1 | 2 | 3 | 4 | 5 | 6 | 7 | 8 => decide
  | _ + 9 => rfl

theorem toNat_digitChar (d : Nat) (h : d < 10) : (digitChar d).toNat = 48 + d := by
  interval_cases d <;> decide

theorem natDigits_all_digit (n : Nat) : ∀ c ∈ natDigits n, isDigitC c = true := by
  induction n using Nat.strong_induction_on with
  | _ n ih =>
    rw [natDigits]
    by_cases h : n < 10
    · simp only [h, dite_true, List.mem_singleton]
      rintro c rfl
      exact digitChar_digit n
    · simp only [h, dite_false, List.mem_append, List.mem_singleton]
      rintro c (hc | rfl)
      · exact ih (n / 10) (Nat.div_lt_self (by omega) (by omega)) c hc
      · exact digitChar_digit (n % 10)

theorem natDigits_ne_nil (n : Nat) : natDigits n ≠ [] := by
  rw [natDigits]
  by_cases h : n < 10 <;> simp [h]

theorem digitsVal_natDigits (n : Nat) : digitsVal (natDigits n) = n := by
  induction n using Nat.strong_induction_on with
  | _ n ih =>
    rw [natDigits]
    by_cases h : n < 10
    · simp only [h, dite_true, digitsVal, List.foldl_cons, List.foldl_nil]
      rw [toNat_digitChar n h]
      omega
    · simp only [h, dite_false, digitsVal, List.foldl_append, List.foldl_cons, List.foldl_nil]
      have ihm := ih (n / 10) (Nat.div_lt_self (by omega) (by omega))
      simp only [digitsVal] at ihm
      rw [ihm, toNat_digitChar (n % 10) (Nat.mod_lt _ (by omega))]
      omega

theorem natToString_inj {m n : Nat} (h : natToString m = natToString n) : m = n := by
  have hd : natDigits m = natDigits n := congrArg String.data h
  calc m = digitsVal (natDigits m) := (digitsVal_natDigits m).symm
    _ = digitsVal (natDigits n) := by rw [hd]
    _ = n := digitsVal_natDigits n

theorem rchoice_mem (l : List String) (hl : l ≠ []) (r : Nat) : rchoice l r ∈ l := by
  unfold rchoice
  have hlen : 0 < l.length := List.length_pos.mpr hl
  have hr : r % l.length < l.length := Nat.mod_lt _ hlen
  rw [List.getD_eq_getElem?_getD, List.getElem?_eq_getElem hr, Option.getD_some]
  exact List.getElem_mem hr

theorem first_names_ne_nil : first_names ≠ [] := by decide

theorem last_names_ne_nil : last_names ≠ [] := by decide

theorem depts_ne_nil : depts ≠ [] := by decide

theorem first_names_lower_alpha :
    ∀ s ∈ first_names, (strLower s).data.all lowerAlpha = true := by decide

theorem last_names_lower_alpha :
    ∀ s ∈ last_names, (strLower s).data.all lowerAlpha = true := by decide

theorem first_names_clean : ∀ s ∈ first_names, cleanStr s = true := by decide

theorem last_names_clean : ∀ s ∈ last_names, cleanStr s = true := by decide

theorem depts_clean : ∀ s ∈ depts, cleanStr s = true := by decide

theorem data_strLower (s : String) : (strLower s).data = s.data.map Char.toLower := rfl

theorem data_natToString (n : Nat) : (natToString n).data = natDigits n := rfl

theorem cleanStr_append (a b : String) :
    cleanStr (a ++ b) = (cleanStr a && cleanStr b) := by
  simp [cleanStr, String.data_append, List.all_append]

theorem cleanStr_iff (s : String) : cleanStr s = true ↔ ∀ c ∈ s.data, cleanChar c = true := by
  simp [cleanStr, List.all_eq_true]

theorem needsQuote_eq_false_of_clean (s : String) (h : cleanStr s = true) :
    needsQuote s = false := by
  rw [needsQuote, List.any_eq_false]
  intro c hc
  have h2 := (cleanStr_iff s).mp h c hc
  rw [cleanChar, Bool.not_eq_true'] at h2
  rw [h2]
  decide

theorem quoteField_of_clean (s : String) (h : cleanStr s = true) : quoteField s = s := by
  rw [quoteField, needsQuote_eq_false_of_clean s h]
  rfl

theorem writerow_of_clean (row : List String) (h : ∀ f ∈ row, cleanStr f = true) :
    writerow row = joinComma row ++ "\r\n" := by
  rw [writerow]
  congr 1
  exact congrArg joinComma
    ((List.map_congr_left (fun f hf => quoteField_of_clean f (h f hf))).trans (List.map_id row))

theorem count_eq_zero_of_clean (s : String) (h : cleanStr s = true) (c : Char)
    (hc : cleanChar c = false) : s.data.count c = 0 := by
  rw [List.count_eq_zero]
  intro hmem
  rw [(cleanStr_iff s).mp h c hmem] at hc
  exact absurd hc (by decide)

theorem joinComma_count (row : List String) (c : Char)
    (h : ∀ f ∈ row, f.data.count c = 0) :
    (joinComma row).data.count c =
      if c = ',' then row.length - 1 else 0 := by
  induction row with
  | nil => simp [joinComma]
  | cons f rest ih =>
    match rest with
    | [] =>
      have := h f (by simp)
      simp only [joinComma, List.length_cons, List.length_nil]
      rw [this]
      simp
    | g :: rest' =>
      have hf := h f (by simp)
      have hrest : ∀ x ∈ g :: rest', x.data.count c = 0 := fun x hx => h x (by simp [hx])
      have ihr := ih hrest
      show ((f ++ "," ++ joinComma (g :: rest')).data.count c) = _
      rw [String.data_append, String.data_append, List.count_append, List.count_append, hf, ihr]
      by_cases hc : c = ','
      · subst hc
        simp [List.length_cons]
        omega
      · simp [hc]

theorem cleanStr_natToString (n : Nat) : cleanStr (natToString n) = true := by
  rw [cleanStr, data_natToString, List.all_eq_true]
  intro c hc
  exact (isDigitC_facts c (natDigits_all_digit n c hc)).1

theorem cleanStr_strLower_first (d : Draws) : cleanStr (strLower (fnameOf d)) = true := by
  rw [cleanStr, List.all_eq_true]
  intro c hc
  have hm := rchoice_mem first_names first_names_ne_nil d.rFname
  have := List.all_eq_true.mp (first_names_lower_alpha _ hm) c hc
  exact (lowerAlpha_facts c this).2.1

theorem cleanStr_strLower_last (d : Draws) : cleanStr (strLower (lnameOf d)) = true := by
  rw [cleanStr, List.all_eq_true]
  intro c hc
  have hm := rchoice_mem last_names last_names_ne_nil d.rLname
  have := List.all_eq_true.mp (last_names_lower_alpha _ hm) c hc
  exact (lowerAlpha_facts c this).2.1

theorem cleanStr_nameOf (d : Draws) : cleanStr (nameOf d) = true := by
  rw [nameOf, cleanStr_append, cleanStr_append]
  have h1 := first_names_clean _ (rchoice_mem first_names first_names_ne_nil d.rFname)
  have h2 := last_names_clean _ (rchoice_mem last_names last_names_ne_nil d.rLname)
  rw [fnameOf] at *
  rw [lnameOf]
  rw [h1, h2]
  decide

theorem cleanStr_emailOf (i : Nat) (d : Draws) : cleanStr (emailOf i d) = true := by
  rw [emailOf, cleanStr_append, cleanStr_append, cleanStr_append, cleanStr_append]
  rw [cleanStr_strLower_first d, cleanStr_strLower_last d, cleanStr_natToString i]
  decide

theorem cleanStr_deptOf (d : Draws) : cleanStr (deptOf d) = true :=
  depts_clean _ (rchoice_mem depts depts_ne_nil d.rDept)

theorem makeRecord_clean (i : Nat) (d : Draws) :
    ∀ f ∈ makeRecord i d, cleanStr f = true := by
  intro f hf
  rw [makeRecord] at hf
  simp only [List.mem_cons, List.mem_singleton, List.not_mem_nil, or_false] at hf
  rcases hf with rfl | rfl | rfl | rfl | rfl
  · exact cleanStr_nameOf d
  · exact cleanStr_emailOf i d
  · exact cleanStr_natToString _
  · exact cleanStr_natToString _
  · exact cleanStr_deptOf d

theorem headerRow_clean : ∀ f ∈ headerRow, cleanStr f = true := by decide

/-- Every row handed to `w.writerow` has five clean fields. -/
theorem csvRows_shape (n : Nat) (o : Nat → Draws) (row : List String)
    (h : row ∈ csvRows n o) :
    row.length = 5 ∧ ∀ f ∈ row, cleanStr f = true := by
  rw [csvRows, List.mem_cons] at h
  rcases h with rfl | h
  · exact ⟨rfl, headerRow_clean⟩
  · rw [List.mem_map] at h
    obtain ⟨i, _, rfl⟩ := h
    exact ⟨rfl, makeRecord_clean i (o i)⟩

theorem writerow_count_of_row (n : Nat) (o : Nat → Draws) (row : List String)
    (h : row ∈ csvRows n o) (c : Char) (hc : cleanChar c = false) :
    (writerow row).data.count c =
      (if c = ',' then 4 else 0) + ("\r\n".data.count c) := by
  obtain ⟨hlen, hclean⟩ := csvRows_shape n o row h
  rw [writerow_of_clean row hclean, String.data_append, List.count_append]
  congr 1
  rw [joinComma_count row c (fun f hf => count_eq_zero_of_clean f (hclean f hf) c hc), hlen]

theorem count_nl_writerow (n : Nat) (o : Nat → Draws) (row : List String)
    (h : row ∈ csvRows n o) : (writerow row).data.count '\n' = 1 := by
  rw [writerow_count_of_row n o row h '\n' (by decide)]
  decide

/-- `takeWhile` runs through a true block and stops at the first failure. -/
theorem takeWhile_stop (p : Char → Bool) (a : List Char) (c : Char) (rest : List Char)
    (ha : ∀ x ∈ a, p x = true) (hc : p c = false) :
    (a ++ c :: rest).takeWhile p = a := by
  induction a with
  | nil => simpa [List.takeWhile_cons] using hc
  | cons x xs ih =>
    rw [List.cons_append, List.takeWhile_cons_of_pos (ha x (by simp))]
    rw [ih (fun y hy => ha y (by simp [hy]))]

theorem count_strJoin (c : Char) (l : List String) :
    (strJoin l).data.count c = (l.map (fun s => s.data.count c)).sum := by
  induction l with
  | nil => rfl
  | cons s rest ih =>
    show ((s ++ strJoin rest).data.count c) = _
    rw [String.data_append, List.count_append, ih, List.map_cons, List.sum_cons]

theorem sum_of_ones {α : Type} (l : List α) (f : α → Nat) (h : ∀ x ∈ l, f x = 1) :
    (l.map f).sum = l.length := by
  induction l with
  | nil => rfl
  | cons x xs ih =>
    rw [List.map_cons, List.sum_cons, h x (by simp), List.length_cons,
      ih (fun y hy => h y (by simp [hy]))]
    omega

/-- Character-level decomposition of the email f-string. -/
theorem email_data (i : Nat) (d : Draws) :
    (emailOf i d).data =
      (strLower (fnameOf d)).data ++ '.' ::
        ((strLower (lnameOf d)).data ++ (natDigits i ++ "@company.com".data)) := by
  rw [emailOf, String.data_append, String.data_append, String.data_append,
    String.data_append, data_natToString]
  simp

theorem takeWhile_all_none (p : Char → Bool) (a b : List Char)
    (ha : ∀ x ∈ a, p x = true) (hb : ∀ x ∈ b, p x = false) :
    (a ++ b).takeWhile p = a := by
  induction a with
  | nil =>
    simp only [List.nil_append]
    match b with
    | [] => rfl
    | y :: ys => exact List.takeWhile_cons_of_neg (by simp [hb y (by simp)])
  | cons x xs ih =>
    rw [List.cons_append, List.takeWhile_cons_of_pos (ha x (by simp))]
    rw [ih (fun y hy => ha y (by simp [hy]))]

theorem firstLower_alpha (d : Draws) :
    ∀ c ∈ (strLower (fnameOf d)).data, lowerAlpha c = true := by
  intro c hc
  exact List.all_eq_true.mp
    (first_names_lower_alpha _ (rchoice_mem first_names first_names_ne_nil d.rFname)) c hc

theorem lastLower_alpha (d : Draws) :
    ∀ c ∈ (strLower (lnameOf d)).data, lowerAlpha c = true := by
  intro c hc
  exact List.all_eq_true.mp
    (last_names_lower_alpha _ (rchoice_mem last_names last_names_ne_nil d.rLname)) c hc

theorem localPart_not_digit (d : Draws) :
    ∀ x ∈ (strLower (fnameOf d)).data ++ '.' :: (strLower (lnameOf d)).data,
      isDigitC x = false := by
  intro x hx
  rw [List.mem_append, List.mem_cons] at hx
  rcases hx with hx | rfl | hx
  · exact (lowerAlpha_facts x (firstLower_alpha d x hx)).1
  · decide
  · exact (lowerAlpha_facts x (lastLower_alpha d x hx)).1

theorem string_append_assoc (a b c : String) : (a ++ b) ++ c = a ++ (b ++ c) := by
  apply String.ext
  rw [String.data_append, String.data_append, String.data_append, String.data_append,
    List.append_assoc]

theorem data_at_company : "@company.com".data = '@' :: "company.com".data := rfl

theorem localPart_not_at (i : Nat) (d : Draws) :
    ∀ x ∈ (strLower (fnameOf d)).data ++
        '.' :: ((strLower (lnameOf d)).data ++ natDigits i),
      (x != '@') = true := by
  intro x hx
  rw [List.mem_append, List.mem_cons, List.mem_append] at hx
  rw [bne_iff_ne, ne_eq]
  rcases hx with hx | rfl | hx | hx
  · exact (lowerAlpha_facts x (firstLower_alpha d x hx)).2.2.2
  · decide
  · exact (lowerAlpha_facts x (lastLower_alpha d x hx)).2.2.2
  · exact (isDigitC_facts x (natDigits_all_digit i x hx)).2.2

theorem count_dot_firstLower (d : Draws) : (strLower (fnameOf d)).data.count '.' = 0 := by
  rw [List.count_eq_zero]
  intro hmem
  exact (lowerAlpha_facts _ (firstLower_alpha d _ hmem)).2.2.1 rfl

theorem count_dot_lastLower (d : Draws) : (strLower (lnameOf d)).data.count '.' = 0 := by
  rw [List.count_eq_zero]
  intro hmem
  exact (lowerAlpha_facts _ (lastLower_alpha d _ hmem)).2.2.1 rfl

theorem count_dot_natDigits (i : Nat) : (natDigits i).count '.' = 0 := by
  rw [List.count_eq_zero]
  intro hmem
  exact (isDigitC_facts _ (natDigits_all_digit i _ hmem)).2.1 rfl

/-- A digit-free block followed by an all-digit block determines the digit
block: equality of the concatenations forces equality of the digit parts. -/
theorem append_digits_inj (L1 L2 D1 D2 : List Char)
    (hL1 : ∀ x ∈ L1, isDigitC x = false) (hL2 : ∀ x ∈ L2, isDigitC x = false)
    (hD1 : ∀ x ∈ D1, isDigitC x = true) (hD2 : ∀ x ∈ D2, isDigitC x = true)
    (h : L1 ++ D1 = L2 ++ D2) : D1 = D2 := by
  have h3 := congrArg List.reverse h
  rw [List.reverse_append, List.reverse_append] at h3
  have tw := congrArg (List.takeWhile isDigitC) h3
  rw [takeWhile_all_none _ _ _ (fun x hx => hD1 x (List.mem_reverse.mp hx))
      (fun x hx => hL1 x (List.mem_reverse.mp hx)),
    takeWhile_all_none _ _ _ (fun x hx => hD2 x (List.mem_reverse.mp hx))
      (fun x hx => hL2 x (List.mem_reverse.mp hx))] at tw
  have h4 := congrArg List.reverse tw
  rwa [List.reverse_reverse, List.reverse_reverse] at h4

theorem writeLoop_wrote_only (fails : Nat → Bool) (lines : List String) (k : Nat) :
    ∀ e ∈ (writeLoop fails lines k).1, ∃ s, e = Ev.wrote s := by
  induction lines generalizing k with
  | nil =>
    intro e he
    simp [writeLoop] at he
  | cons s rest ih =>
    intro e he
    rw [writeLoop] at he
    cases hk : fails k with
    | true => simp [hk] at he
    | false =>
      simp only [hk, Bool.false_eq_true, if_false, List.mem_cons] at he
      rcases he with rfl | he
      · exact ⟨s, rfl⟩
      · exact ih (k + 1) e he

theorem writeLoop_all_ok (fails : Nat → Bool) (lines : List String) (k : Nat)
    (h : ∀ j, fails j = false) :
    writeLoop fails lines k = (lines.map Ev.wrote, true) := by
  induction lines generalizing k with
  | nil => rfl
  | cons s rest ih =>
    rw [writeLoop, h k]
    simp only [Bool.false_eq_true, if_false, ih (k + 1), List.map_cons]

theorem writeLoop_fail_at (fails : Nat → Bool) (lines : List String) (k m : Nat)
    (hok : ∀ j, j < m → fails (k + j) = false) (hf : fails (k + m) = true)
    (hm : m < lines.length) :
    writeLoop fails lines k = ((lines.take m).map Ev.wrote, false) := by
  induction lines generalizing k m with
  | nil => simp at hm
  | cons s rest ih =>
    cases m with
    | zero =>
      rw [writeLoop]
      rw [Nat.add_zero] at hf
      simp [hf]
    | succ m' =>
      have h0 : fails k = false := by
        have := hok 0 (by omega)
        rwa [Nat.add_zero] at this
      have hok' : ∀ j, j < m' → fails (k + 1 + j) = false := by
        intro j hj
        have := hok (j + 1) (by omega)
        rwa [show k + (j + 1) = k + 1 + j by omega] at this
      have hf' : fails (k + 1 + m') = true := by
        rwa [show k + (m' + 1) = k + 1 + m' by omega] at hf
      have hm' : m' < rest.length := by
        simp only [List.length_cons] at hm
        omega
      rw [writeLoop, h0]
      simp only [Bool.false_eq_true, if_false, ih (k + 1) m' hok' hf' hm',
        List.take_succ_cons, List.map_cons]

/-! ### Claim theorems -/

/-- C1: the sink receives exactly `n + 1` rows, its byte content contains
exactly `n + 1` line terminators, and for `n = 0` the content is exactly the
header line; the script's fixed run has `100000 + 1` rows. -/
theorem rowCount_correct (n : Nat) (o : Nat → Draws) :
    (csvRows n o).length = n + 1 ∧
    (output n o).data.count '\n' = n + 1 ∧
    output 0 o = "name,email,age,salary,department\r\n" ∧
    (csvRows 100000 o).length = 100000 + 1 := by
  have hlen : ∀ m : Nat, (csvRows m o).length = m + 1 := by
    intro m
    simp [csvRows]
  refine ⟨hlen n, ?_, rfl, hlen 100000⟩
  rw [output, count_strJoin, List.map_map]
  exact (sum_of_ones (csvRows n o) _
    (fun row hrow => count_nl_writerow n o row hrow)).trans (hlen n)

/-- C2: the header line is byte-exact `name,email,age,salary,department`,
stands first (before every data row), and each data row serialises the five
fields in the order name, email, age, salary, department. -/
theorem header_correct (n : Nat) (o : Nat → Draws) (i : Nat) (d : Draws) :
    writerow headerRow = "name,email,age,salary,department" ++ "\r\n" ∧
    (csvRows n o).head? = some headerRow ∧
    output n o =
      writerow headerRow ++
        strJoin (((List.range n).map (fun k => makeRecord k (o k))).map writerow) ∧
    makeRecord i d =
      [nameOf d, emailOf i d, natToString (ageOf d), natToString (salaryOf d), deptOf d] :=
  ⟨by decide, rfl, rfl, rfl⟩

/-- C5: age lies in [22, 65] and salary in [40000, 160000] on every draw, and
all four bounds are attained by some oracle value. -/
theorem age_salary_range (d : Draws) :
    (22 ≤ ageOf d ∧ ageOf d ≤ 65) ∧
    (40000 ≤ salaryOf d ∧ salaryOf d ≤ 160000) ∧
    (∃ d1 : Draws, ageOf d1 = 22) ∧ (∃ d2 : Draws, ageOf d2 = 65) ∧
    (∃ d3 : Draws, salaryOf d3 = 40000) ∧ (∃ d4 : Draws, salaryOf d4 = 160000) := by
  refine ⟨?_, ?_, ⟨⟨0, 0, 0, 0, 0⟩, by decide⟩, ⟨⟨0, 0, 43, 0, 0⟩, by decide⟩,
    ⟨⟨0, 0, 0, 0, 0⟩, by decide⟩, ⟨⟨0, 0, 0, 120000, 0⟩, by decide⟩⟩
  · have : d.rAge % 44 < 44 := Nat.mod_lt _ (by omega)
    unfold ageOf randint
    omega
  · have : d.rSalary % 120001 < 120001 := Nat.mod_lt _ (by omega)
    unfold salaryOf randint
    omega

/-- C6: the name is `first ++ " " ++ last` with both tokens drawn from their
fixed 8-element lists, and the department is one of the 7 fixed labels. -/
theorem name_dept_correct (d : Draws) :
    (∃ fn ∈ first_names, ∃ ln ∈ last_names, nameOf d = fn ++ " " ++ ln) ∧
    deptOf d ∈ depts ∧
    first_names.length = 8 ∧ last_names.length = 8 ∧ depts.length = 7 := by
  refine ⟨⟨fnameOf d, rchoice_mem first_names first_names_ne_nil d.rFname,
    lnameOf d, rchoice_mem last_names last_names_ne_nil d.rLname, rfl⟩,
    rchoice_mem depts depts_ne_nil d.rDept, by decide, by decide, by decide⟩

/-- C10: the emitted bytes are a function of the random draws alone — two
runs whose oracles agree on every consumed index produce identical output. -/
theorem output_deterministic (n : Nat) (o o' : Nat → Draws)
    (h : ∀ i, i < n → o i = o' i) : output n o = output n o' := by
  have : csvRows n o = csvRows n o' := by
    rw [csvRows, csvRows]
    congr 1
    exact List.map_congr_left (fun i hi => by rw [h i (List.mem_range.mp hi)])
  rw [output, output, this]

/-- C3: the email is the lower-cased first name, a dot, the lower-cased last
name, the index, and `@company.com`; it ends with `{i}@company.com`, and the
part before the `@` contains exactly one dot. -/
theorem email_structure (i : Nat) (d : Draws) :
    emailOf i d =
      strLower (fnameOf d) ++ "." ++ strLower (lnameOf d) ++ natToString i ++
        "@company.com" ∧
    (∃ p : String, emailOf i d = p ++ (natToString i ++ "@company.com")) ∧
    ((emailOf i d).data.takeWhile (fun c => c != '@')).count '.' = 1 := by
  refine ⟨rfl, ⟨strLower (fnameOf d) ++ "." ++ strLower (lnameOf d),
    (string_append_assoc _ _ _)⟩, ?_⟩
  rw [email_data, data_at_company]
  have hsplit :
      (strLower (fnameOf d)).data ++
          '.' :: ((strLower (lnameOf d)).data ++ (natDigits i ++ '@' :: "company.com".data)) =
        ((strLower (fnameOf d)).data ++
          '.' :: ((strLower (lnameOf d)).data ++ natDigits i)) ++ '@' :: "company.com".data := by
    simp
  rw [hsplit, takeWhile_stop _ _ '@' _ (localPart_not_at i d) (by decide)]
  simp only [List.count_append, List.count_cons, List.count_nil,
    count_dot_firstLower, count_dot_lastLower, count_dot_natDigits]
  decide

/-- C4: emails at distinct sequence indices differ, whatever names were
sampled for either row. -/
theorem email_distinct (i j : Nat) (d d' : Draws) (hij : i ≠ j) :
    emailOf i d ≠ emailOf j d' := by
  intro heq
  apply hij
  have hdata := congrArg String.data heq
  rw [email_data, email_data] at hdata
  have reshape : ∀ (A B D : List Char),
      A ++ '.' :: (B ++ (D ++ "@company.com".data)) =
        ((A ++ '.' :: B) ++ D) ++ "@company.com".data := by
    intro A B D
    simp
  rw [reshape, reshape] at hdata
  have h2 := List.append_cancel_right hdata
  have hD : natDigits i = natDigits j :=
    append_digits_inj _ _ _ _ (localPart_not_digit d) (localPart_not_digit d')
      (natDigits_all_digit i) (natDigits_all_digit j) h2
  have hv : digitsVal (natDigits i) = digitsVal (natDigits j) := by rw [hD]
  rwa [digitsVal_natDigits, digitsVal_natDigits] at hv

/-- Witness for C4 at indices 0 and 1 with the all-zero oracle draws. -/
theorem email_distinct_witness :
    (0 : Nat) ≠ 1 ∧
      emailOf 0 ⟨0, 0, 0, 0, 0⟩ ≠ emailOf 1 ⟨0, 0, 0, 0, 0⟩ :=
  ⟨by decide, email_distinct 0 1 ⟨0, 0, 0, 0, 0⟩ ⟨0, 0, 0, 0, 0⟩ (by decide)⟩

/-- C7: every emitted row is the plain comma-join of its five fields — no
field triggers quoting, so the serialized line is the unquoted join with
exactly four delimiter commas and no quote character. -/
theorem no_quoting (n : Nat) (o : Nat → Draws) (row : List String)
    (h : row ∈ csvRows n o) :
    (∀ f ∈ row, cleanStr f = true) ∧
    writerow row = joinComma row ++ "\r\n" ∧
    (writerow row).data.count ',' = 4 ∧
    (writerow row).data.count '"' = 0 := by
  obtain ⟨hlen, hclean⟩ := csvRows_shape n o row h
  refine ⟨hclean, writerow_of_clean row hclean, ?_, ?_⟩
  · rw [writerow_count_of_row n o row h ',' (by decide)]
    decide
  · rw [writerow_count_of_row n o row h '"' (by decide)]
    decide

/-- Witness for C7: the header row of a one-record run. -/
theorem no_quoting_witness :
    headerRow ∈ csvRows 1 (fun _ => ⟨0, 0, 0, 0, 0⟩) ∧
    ((∀ f ∈ headerRow, cleanStr f = true) ∧
      writerow headerRow = joinComma headerRow ++ "\r\n" ∧
      (writerow headerRow).data.count ',' = 4 ∧
      (writerow headerRow).data.count '"' = 0) :=
  ⟨List.mem_cons_self _ _,
    no_quoting 1 (fun _ => ⟨0, 0, 0, 0, 0⟩) headerRow (List.mem_cons_self _ _)⟩

/-- C8: the output is the concatenation of the serialized records, each
record occupying exactly one line: terminated by the line terminator and
free of interior newline or carriage-return characters. -/
theorem one_record_per_line (n : Nat) (o : Nat → Draws) (row : List String)
    (h : row ∈ csvRows n o) :
    output n o = strJoin ((csvRows n o).map writerow) ∧
    (∃ body : String, writerow row = body ++ "\r\n" ∧
      body.data.count '\n' = 0 ∧ body.data.count '\r' = 0) ∧
    (writerow row).data.count '\n' = 1 := by
  obtain ⟨hlen, hclean⟩ := csvRows_shape n o row h
  refine ⟨rfl, ⟨joinComma row, writerow_of_clean row hclean, ?_, ?_⟩,
    count_nl_writerow n o row h⟩
  · rw [joinComma_count row '\n'
      (fun f hf => count_eq_zero_of_clean f (hclean f hf) '\n' (by decide))]
    simp
  · rw [joinComma_count row '\r'
      (fun f hf => count_eq_zero_of_clean f (hclean f hf) '\r' (by decide))]
    simp

/-- Witness for C8: the header row of a one-record run. -/
theorem one_record_per_line_witness :
    headerRow ∈ csvRows 1 (fun _ => ⟨0, 0, 0, 0, 0⟩) ∧
    (output 1 (fun _ => ⟨0, 0, 0, 0, 0⟩) =
        strJoin ((csvRows 1 (fun _ => ⟨0, 0, 0, 0, 0⟩)).map writerow) ∧
      (∃ body : String, writerow headerRow = body ++ "\r\n" ∧
        body.data.count '\n' = 0 ∧ body.data.count '\r' = 0) ∧
      (writerow headerRow).data.count '\n' = 1) :=
  ⟨List.mem_cons_self _ _,
    one_record_per_line 1 (fun _ => ⟨0, 0, 0, 0, 0⟩) headerRow (List.mem_cons_self _ _)⟩

/-- C9: in the trace model of `with open(...) as f:` — if the open fails,
nothing runs and the failure surfaces; whenever the open succeeds the trace
is open, writes only, close, so the handle is closed on the success and the
error path alike; with no write failure all `n + 1` rows are written; and a
first write failure at call `m` aborts at once with exactly the first `m`
rows written — no retry and no further write. -/
theorem io_failure_model (n : Nat) (o : Nat → Draws) (sk : SinkModel) (m : Nat) :
    (sk.openFails = true → runGen n o sk = ([], false)) ∧
    (sk.openFails = false →
      ∃ evs ok, runGen n o sk = (Ev.opened :: evs ++ [Ev.closed], ok) ∧
        ∀ e ∈ evs, ∃ s, e = Ev.wrote s) ∧
    (sk.openFails = false → (∀ j, sk.writeFails j = false) →
      runGen n o sk =
        (Ev.opened :: ((csvRows n o).map writerow).map Ev.wrote ++ [Ev.closed], true)) ∧
    (sk.openFails = false → (∀ j, j < m → sk.writeFails j = false) →
      sk.writeFails m = true → m < n + 1 →
      runGen n o sk =
        (Ev.opened :: ((((csvRows n o).map writerow).take m).map Ev.wrote) ++ [Ev.closed],
          false)) := by
  refine ⟨?_, ?_, ?_, ?_⟩
  · intro hopen
    rw [runGen, hopen]
    rfl
  · intro hopen
    rw [runGen, hopen]
    exact ⟨_, _, rfl, writeLoop_wrote_only sk.writeFails _ 0⟩
  · intro hopen hok
    rw [runGen, hopen]
    simp only [Bool.false_eq_true, if_false,
      writeLoop_all_ok sk.writeFails _ 0 hok]
  · intro hopen hok hf hm
    have hlen : m < ((csvRows n o).map writerow).length := by
      simp only [List.length_map, csvRows, List.length_cons, List.length_map,
        List.length_range]
      omega
    have hok0 : ∀ j, j < m → sk.writeFails (0 + j) = false := by
      intro j hj
      rw [Nat.zero_add]
      exact hok j hj
    have hf0 : sk.writeFails (0 + m) = true := by
      rwa [Nat.zero_add]
    rw [runGen, hopen]
    simp only [Bool.false_eq_true, if_false,
      writeLoop_fail_at sk.writeFails _ 0 m hok0 hf0 hlen]

/-- Witness for C9: a one-record run whose second write call fails. -/
theorem io_failure_model_witness :
    runGen 1 (fun _ => ⟨0, 0, 0, 0, 0⟩) ⟨false, fun j => j == 1⟩ =
      (Ev.opened ::
          ((((csvRows 1 (fun _ => ⟨0, 0, 0, 0, 0⟩)).map writerow).take 1).map Ev.wrote) ++
          [Ev.closed],
        false) :=
  (io_failure_model 1 (fun _ => ⟨0, 0, 0, 0, 0⟩) ⟨false, fun j => j == 1⟩ 1).2.2.2
    rfl (fun j hj => by interval_cases j; rfl) rfl (by omega)

/-- Witness for C10 at `n = 1` with two oracles that differ from index 1 on. -/
theorem output_deterministic_witness :
    (∀ i, i < 1 →
      (fun _ : Nat => (⟨0, 0, 0, 0, 0⟩ : Draws)) i =
        (fun k : Nat => if k = 0 then (⟨0, 0, 0, 0, 0⟩ : Draws) else ⟨1, 2, 3, 4, 5⟩) i) ∧
    output 1 (fun _ => ⟨0, 0, 0, 0, 0⟩) =
      output 1 (fun k => if k = 0 then ⟨0, 0, 0, 0, 0⟩ else ⟨1, 2, 3, 4, 5⟩) :=
  ⟨fun i hi => by interval_cases i; rfl,
    output_deterministic 1 _ _ (fun i hi => by interval_cases i; rfl)⟩

end GenScript
